import Mathlib

/-!
Verification of the `evangelist` PDF-to-JPEG conversion server (`server.go`
and the earlier revision kept in the repository).  The development embeds the
pure content of the pipeline: decimal formatting and parsing of page counts,
`%d` placeholder substitution in path templates, the worker-range partition
loop shared by `convertPDFToJPEGs` and `uploadAllJPEGsToS3`, the per-range
conversion and upload workers (as traces of the external invocations and
store writes they perform), the form-field validation of the three remote
templates, and the `float64` ceiling computation used to size worker ranges.
External effects (process invocations, S3 reads/writes) are represented by
success oracles and by the traces of attempted operations.
-/

/-- Character list of a string literal; paths and templates are modelled as
`List Char`. -/
def str (s : String) : List Char := s.data

/-- Decimal digit characters, as produced by `fmt.Sprintf` with verb `%d`:
`digitChar d` is the character for a digit value `d < 10`. -/
def digitChar (d : ℕ) : Char := Char.ofNat (48 + d)

/-- Fuel-driven core of decimal formatting: prepends the base-10 digits of
`n` to `acc`, consuming one unit of fuel per digit.  Structural recursion on
the fuel keeps the definition kernel-reducible; `natDec` supplies enough
fuel for every input. -/
def natDecCore : ℕ → ℕ → List Char → List Char
  | 0, _, acc => acc
  | fuel + 1, n, acc =>
    if n < 10 then digitChar n :: acc
    else natDecCore fuel (n / 10) (digitChar (n % 10) :: acc)

/-- Base-10 representation of a natural number, most significant digit
first, as printed by Go's `fmt.Sprintf("%d", n)` for `n ≥ 0`. -/
def natDec (n : ℕ) : List Char := natDecCore (n + 1) n []

/-- Base-10 representation of an integer, as printed by Go's
`fmt.Sprintf("%d", n)` (a leading minus sign for negative values). -/
def intDec (n : ℤ) : List Char :=
  if n < 0 then '-' :: natDec (-n).toNat else natDec n.toNat

/-- Test for an ASCII decimal digit (`'0' <= c && c <= '9'` over byte
values), as accepted by `strconv.ParseInt` in base 10. -/
def isDigitC (c : Char) : Bool := (48 ≤ c.toNat && c.toNat ≤ 57)

/-- Value of a base-10 digit string (the accumulator loop of Go's
`strconv.ParseUint` specialised to base 10). -/
def digsVal (l : List Char) : ℕ := l.foldl (fun a c => 10 * a + (c.toNat - 48)) 0

/-- Model of Go's `strconv.ParseInt(s, 10, 0)` on a 64-bit platform
(`server.go` line 54): an optional sign followed by at least one decimal
digit, with the result range-checked against `int64`; any other input,
including surrounding whitespace, is a parse failure (`none`). -/
def parseInt10 (s : List Char) : Option ℤ :=
  match s with
  | [] => none
  | c :: rest =>
    let neg : Bool := c = '-'
    let digs : List Char := if c = '-' || c = '+' then rest else s
    if digs = [] then none
    else if digs.all isDigitC then
      let v : ℕ := digsVal digs
      if neg then (if v ≤ 2 ^ 63 then some (-(v : ℤ)) else none)
      else (if v < 2 ^ 63 then some (v : ℤ) else none)
    else none

/-- Model of `strings.Trim(s, "\n")` (`server.go` line 53): removes leading
and trailing newline characters, and nothing else. -/
def trimNewlines (s : List Char) : List Char :=
  ((s.dropWhile (fun c => c = '\n')).reverse.dropWhile (fun c => c = '\n')).reverse

/-- Splits a template at the first occurrence of the page-number placeholder
`%d`, returning the parts before and after it, or `none` when the template
contains no placeholder.  This is the common core of the model of
`fmt.Sprintf` with a single `%d` verb, of `strings.Contains(s, "%d")` and of
`strings.Replace(s, "%d", repl, 1)`. -/
def splitAtPH : List Char → Option (List Char × List Char)
  | [] => none
  | c :: rest =>
    if c = '%' ∧ rest.head? = some 'd' then some ([], rest.tail)
    else (splitAtPH rest).map (fun p => (c :: p.1, p.2))

/-- Model of `strings.Contains(s, "%d")` (`server.go` lines 150, 157, 164). -/
def containsPH (t : List Char) : Bool := (splitAtPH t).isSome

/-- Placeholder substitution: model of `fmt.Sprintf(template, pageNum)` for
a template following the spec's single-`%d` convention — the first `%d` is
replaced by the decimal page number (`server.go` lines 64, 70, 217-219).
A template with no placeholder is returned unchanged. -/
def sub (t : List Char) (n : ℤ) : List Char :=
  match splitAtPH t with
  | none => t
  | some (a, b) => a ++ intDec n ++ b

/-- Model of `strings.Replace(t, "%d", "%d" + sfx, 1)` as used by the
earlier revision of the server (`src/unnamed/part_002` lines 83-87) to derive
the `-small` and `-large` variant templates: the suffix is inserted
immediately after the first placeholder. -/
def replaceFirstPH (t sfx : List Char) : List Char :=
  match splitAtPH t with
  | none => t
  | some (a, b) => a ++ '%' :: 'd' :: (sfx ++ b)

/-- Number of concurrent conversion workers (`server.go` line 24). -/
def NUM_WORKERS_CONVERT : ℤ := 2

/-- Number of concurrent upload workers (`server.go` line 27). -/
def NUM_WORKERS_UPLOAD : ℤ := 10

/-- Exact integer ceiling of `a / b` for `b ≥ 1`; this is the value
`perWorker = ceil(total/workerCount)` that the partition-loop claims are
stated with.  (The Go code reaches it through `float64` arithmetic; that
detour is modelled separately by `goCeilDivFloat` and related to `ceilDiv`
by the C9 theorems.) -/
def ceilDiv (a b : ℤ) : ℤ := (a + b - 1) / b

/-- One step of the worker-partition loop shared by `uploadAllJPEGsToS3`
(`server.go` lines 175-186) and `convertPDFToJPEGs` (lines 262-273):
starting at `first`, emit the range `[first, min (first+pw-1) total]` while
`first ≤ total`, stepping by `pw`.  The fuel argument only bounds the number
of iterations (the Go loop has no fuel); `partition` passes `total.toNat`,
which is enough because every actual call has step `pw ≥ 1`. -/
def partitionLoop : ℕ → ℤ → ℤ → ℤ → List (ℤ × ℤ)
  | 0, _, _, _ => []
  | fuel + 1, total, pw, first =>
    if first ≤ total then
      (first, min (first + pw - 1) total) :: partitionLoop fuel total pw (first + pw)
    else []

/-- The list of page ranges a coordinator hands to its workers: the loop of
`server.go` lines 175-186 / 262-273 with `perWorker = ceilDiv total w`,
started at page 1. -/
def partition (total w : ℤ) : List (ℤ × ℤ) :=
  partitionLoop total.toNat total (ceilDiv total w) 1

/-- The list `[first, first+1, ..., first+len-1]` of integers. -/
def intRangeLen (first : ℤ) : ℕ → List ℤ
  | 0 => []
  | n + 1 => first :: intRangeLen (first + 1) n

/-- The list of integers of the inclusive interval `[first, last]`. -/
def intRange (first last : ℤ) : List ℤ := intRangeLen first (last + 1 - first).toNat

/-- The three image variants produced for every page (spec §3). -/
inductive ImageVariant where
  | normal
  | small
  | large
deriving DecidableEq, Repr

/-- One attempted upload: `uploadJPEGToS3` (`server.go` lines 62-76) opens
the local file at `sub localTemplate page` and writes it to the store at
`sub remoteTemplate page`.  This record is the spec's UploadTarget. -/
structure UploadOp where
  variant : ImageVariant
  pageNum : ℤ
  localPath : List Char
  remotePath : List Char
deriving DecidableEq, Repr

/-- The three uploads `uploadJPEGRangeToS3` performs for one page, in source
order: normal, small, large (`server.go` lines 88-95). -/
def pageOps (jp sp lp rjp rsp rlp : List Char) (pageNum : ℤ) : List UploadOp :=
  [⟨ImageVariant.normal, pageNum, sub jp pageNum, sub rjp pageNum⟩,
   ⟨ImageVariant.small, pageNum, sub sp pageNum, sub rsp pageNum⟩,
   ⟨ImageVariant.large, pageNum, sub lp pageNum, sub rlp pageNum⟩]

/-- Trace of the uploads attempted by one upload worker,
`uploadJPEGRangeToS3` (`server.go` lines 80-99): for each page of its range
it attempts the normal, small and large uploads in order and returns on the
first failure (`ok` decides whether an attempt succeeds; a failed attempt is
still part of the trace).  The fuel is the exact page count of the range,
`(last + 1 - first).toNat`, supplied by `uploadAllJPEGsToS3`. -/
def uploadRange (ok : UploadOp → Bool) (jp sp lp rjp rsp rlp : List Char) :
    ℕ → ℤ → List UploadOp
  | 0, _ => []
  | fuel + 1, pageNum =>
    let opN : UploadOp := ⟨ImageVariant.normal, pageNum, sub jp pageNum, sub rjp pageNum⟩
    if ok opN = false then [opN]
    else
      let opS : UploadOp := ⟨ImageVariant.small, pageNum, sub sp pageNum, sub rsp pageNum⟩
      if ok opS = false then [opN, opS]
      else
        let opL : UploadOp := ⟨ImageVariant.large, pageNum, sub lp pageNum, sub rlp pageNum⟩
        if ok opL = false then [opN, opS, opL]
        else opN :: opS :: opL :: uploadRange ok jp sp lp rjp rsp rlp fuel (pageNum + 1)

/-- The three remote-template form fields read by `uploadAllJPEGsToS3`
(`server.go` lines 109-111).  `none` models an absent key; `some vs` a key
mapped to the list of supplied values. -/
structure UploadForm where
  s3JPEGPath : Option (List (List Char))
  s3SmallJPEGPath : Option (List (List Char))
  s3LargeJPEGPath : Option (List (List Char))

/-- Model of `uploadAllJPEGsToS3` (`server.go` lines 106-190): validates the
three remote-template fields in source order (presence, then cardinality,
then placeholder), and on success returns the concatenated traces of the
upload workers spawned over the partitioned page ranges.  The worker traces
are listed per range; concurrency only interleaves them, which no claim
here depends on. -/
def uploadAllJPEGsToS3 (ok : UploadOp → Bool) (form : UploadForm)
    (jpegPath smallJPEGPath largeJPEGPath : List Char) (numPages : ℤ) :
    Except String (List UploadOp) :=
  if form.s3JPEGPath.isNone then
    .error ("Must specify a JPEG path in the s3JPEGPath key.")
  else if form.s3SmallJPEGPath.isNone then
    .error ("Must specify a small JPEG path in the s3SmallJPEGPath key.")
  else if form.s3LargeJPEGPath.isNone then
    .error ("Must specify a large JPEG path in the s3LargeJPEGPath key.")
  else if (form.s3JPEGPath.getD []).length ≠ 1 then
    .error ("Must specify exactly one JPEG path in the s3JPEGPath key.")
  else if (form.s3SmallJPEGPath.getD []).length ≠ 1 then
    .error ("Must specify exactly one JPEG path in the s3SmallJPEGPath key.")
  else if (form.s3LargeJPEGPath.getD []).length ≠ 1 then
    .error ("Must specify exactly one JPEG path in the s3LargeJPEGPath key.")
  else
    let s3JPEGPath := (form.s3JPEGPath.getD []).headD []
    let s3SmallJPEGPath := (form.s3SmallJPEGPath.getD []).headD []
    let s3LargeJPEGPath := (form.s3LargeJPEGPath.getD []).headD []
    if containsPH s3JPEGPath = false then
      .error ("Must specify a JPEG path with a %d in the s3JPEGPath key.")
    else if containsPH s3SmallJPEGPath = false then
      .error ("Must specify a JPEG path with a %d in the s3SmallJPEGPath key.")
    else if containsPH s3LargeJPEGPath = false then
      .error ("Must specify a JPEG path with a %d in the s3LargeJPEGPath key.")
    else
      .ok ((partition numPages NUM_WORKERS_UPLOAD).flatMap
        (fun r => uploadRange ok jpegPath smallJPEGPath largeJPEGPath
          s3JPEGPath s3SmallJPEGPath s3LargeJPEGPath (r.2 + 1 - r.1).toNat r.1))

/-- Specification-side description of a fully successful upload phase
(spec §8): for each page number 1..numPages in order, the normal, small and
large variants, each at the corresponding substituted paths.  The C1 theorem
proves the code's traces refine this list. -/
def specUploads (jp sp lp rjp rsp rlp : List Char) (numPages : ℤ) : List UploadOp :=
  (intRange 1 numPages).flatMap (pageOps jp sp lp rjp rsp rlp)

/-- One external invocation attempted by a conversion worker: the
ghostscript rasterization of a page, or one of the two `convert` resize
calls deriving the normal and small variants. -/
inductive ConvEvent where
  | raster (pageNum : ℤ)
  | resizeNormal (pageNum : ℤ)
  | resizeSmall (pageNum : ℤ)
deriving DecidableEq, Repr

/-- Trace of the external invocations of one conversion worker,
`convertPagesToJPEGs` (`server.go` lines 206-245): per page, the `gs`
rasterization (worker stops after a failed one), then the two resize calls.
Note the faithfully reproduced slip of the source: the results of the two
`resizeAndSaveImage` calls are discarded — `err` is never reassigned, so the
`if err != nil` checks after them test the stale nil error and the resize
oracles cannot influence the control flow.  The fuel is the exact page count
of the range, supplied by `convertPDFToJPEGs`. -/
def convertRange (rasterOk resizeNormalOk resizeSmallOk : ℤ → Bool) :
    ℕ → ℤ → List ConvEvent
  | 0, _ => []
  | fuel + 1, pageNum =>
    if rasterOk pageNum = false then [ConvEvent.raster pageNum]
    else
      ConvEvent.raster pageNum :: ConvEvent.resizeNormal pageNum ::
        ConvEvent.resizeSmall pageNum ::
        convertRange rasterOk resizeNormalOk resizeSmallOk fuel (pageNum + 1)

/-- Model of `convertPDFToJPEGs` (`server.go` lines 251-277): propagate a
page-count failure; otherwise partition the pages over the conversion
workers, collect their traces, and return the page count together with the
nil error of the original (worker failures are never surfaced). -/
def convertPDFToJPEGs (numPagesResult : Except String ℤ)
    (rasterOk resizeNormalOk resizeSmallOk : ℤ → Bool) :
    Except String (ℤ × List ConvEvent) :=
  match numPagesResult with
  | .error e => .error e
  | .ok numPages =>
    .ok (numPages, (partition numPages NUM_WORKERS_CONVERT).flatMap
      (fun r => convertRange rasterOk resizeNormalOk resizeSmallOk
        (r.2 + 1 - r.1).toNat r.1))

/-- Model of `getNumPages` (`server.go` lines 45-58): `cmdOutput` is the
result of the ghostscript invocation (`cmd.Output()`); on success the bytes
are trimmed of surrounding newlines and parsed with
`strconv.ParseInt(_, 10, 0)`; an invocation or parse failure is returned as
an error, with no fallback. -/
def getNumPages (cmdOutput : Except String (List Char)) : Except String ℤ :=
  match cmdOutput with
  | .error e => .error e
  | .ok bytes =>
    match parseInt10 (trimNewlines bytes) with
    | none => .error ("strconv.ParseInt: invalid syntax")
    | some n => .ok n

/-- Whitespace test covering the ASCII whitespace characters, for the
spec-side reading of C7. -/
def isWhitespaceChar (c : Char) : Bool := c = ' ' || c = '\t' || c = '\n' || c = '\r'

/-- Model of `strings.TrimSpace`-style whitespace trimming, for the
spec-side reading of C7. -/
def trimWhitespace (s : List Char) : List Char :=
  ((s.dropWhile isWhitespaceChar).reverse.dropWhile isWhitespaceChar).reverse

/-- Claim-side variant of `getNumPages`, following the words of the spec and
of claim C7: the captured output is trimmed of surrounding *whitespace*
before the base-10 parse.  Compared against the code model by the C7
counterexample. -/
def getNumPagesSpec (cmdOutput : Except String (List Char)) : Except String ℤ :=
  match cmdOutput with
  | .error e => .error e
  | .ok bytes =>
    match parseInt10 (trimWhitespace bytes) with
    | none => .error ("strconv.ParseInt: invalid syntax")
    | some n => .ok n

/-- Local template for the normal-size page JPEGs, from `server.go` line
370: `fmt.Sprintf("/tmp/%s%%d.jpg", jpegPrefix)` (the `%%` prints a literal
percent sign, so the result still carries the `%d` placeholder). -/
def jpegLocalTemplate (stem : List Char) : List Char :=
  str ("/tmp/") ++ stem ++ str ("%d.jpg")

/-- Local template for the small page JPEGs (`server.go` line 371). -/
def smallJPEGLocalTemplate (stem : List Char) : List Char :=
  str ("/tmp/") ++ stem ++ str ("%d-small.jpg")

/-- Local template for the large page JPEGs (`server.go` line 372). -/
def largeJPEGLocalTemplate (stem : List Char) : List Char :=
  str ("/tmp/") ++ stem ++ str ("%d-large.jpg")

/-- Round a rational to an integer, half-to-even: the tie-breaking rule of
IEEE-754 round-to-nearest used by Go's `float64`. -/
def roundHalfEven (y : ℚ) : ℤ :=
  if y - ⌊y⌋ < 1 / 2 then ⌊y⌋
  else if 1 / 2 < y - ⌊y⌋ then ⌊y⌋ + 1
  else if Even ⌊y⌋ then ⌊y⌋ else ⌊y⌋ + 1

/-- Rounding of a real (rational) value to the nearest `float64`
(round-to-nearest, ties to even, 53-bit significand, unbounded exponent —
exact for the magnitudes the server handles, which stay far from overflow
and underflow): the significand `x / 2^(e-52)` with `e = ⌊log₂ |x|⌋` is
rounded half-to-even and scaled back. -/
def floatRound (x : ℚ) : ℚ :=
  if x = 0 then 0
  else if 0 < x then
    (roundHalfEven (x * 2 ^ ((52 : ℤ) - Int.log 2 x)) : ℚ) * 2 ^ (Int.log 2 x - (52 : ℤ))
  else
    -((roundHalfEven ((-x) * 2 ^ ((52 : ℤ) - Int.log 2 (-x))) : ℚ) *
      2 ^ (Int.log 2 (-x) - (52 : ℤ)))

/-- The per-worker page count as the Go code computes it (`server.go` lines
171-172 and 257-258): convert `total` and `w` to `float64`, divide (IEEE
division returns the correctly rounded quotient), apply `math.Ceil`, and
convert back to `int` (exact for the magnitudes involved, since the ceiling
of a float is integral and far below 2^63 here). -/
def goCeilDivFloat (total w : ℤ) : ℤ :=
  ⌈floatRound (floatRound (total : ℚ) / floatRound (w : ℚ))⌉

/-- One remote-template form field is malformed in the sense of claim C5:
the key is absent, or it carries a number of values different from one, or
its (single) value lacks the `%d` page-number placeholder. -/
def malformedField (f : Option (List (List Char))) : Bool :=
  f.isNone || ((f.getD []).length != 1) || !containsPH ((f.getD []).headD [])

/-- The fuel of `natDecCore` is irrelevant once it exceeds the input, and
the accumulator is simply appended. -/
theorem natDecCore_eq (n : ℕ) : ∀ (fuel : ℕ) (acc : List Char), n < fuel →
    natDecCore fuel n acc = natDec n ++ acc := by
  induction n using Nat.strong_induction_on with
  | _ n ih =>
    intro fuel acc hfuel
    match fuel with
    | 0 => omega
    | fuel + 1 =>
      by_cases h10 : n < 10
      · simp [natDecCore, natDec, h10]
      · have hdiv : n / 10 < n := Nat.div_lt_self (by omega) (by omega)
        have hstep : natDec n = natDec (n / 10) ++ [digitChar (n % 10)] := by
          rw [natDec]
          rw [show natDecCore (n + 1) n [] =
              natDecCore n (n / 10) (digitChar (n % 10) :: []) by
            simp [natDecCore, h10]]
          rw [ih (n / 10) hdiv n (digitChar (n % 10) :: []) (by omega)]
        rw [show natDecCore (fuel + 1) n acc =
            natDecCore fuel (n / 10) (digitChar (n % 10) :: acc) by
          simp [natDecCore, h10]]
        rw [ih (n / 10) hdiv fuel (digitChar (n % 10) :: acc) (by omega), hstep]
        simp

/-- Unfolding step of `natDec` for numbers of two or more digits. -/
theorem natDec_step {n : ℕ} (h : 10 ≤ n) :
    natDec n = natDec (n / 10) ++ [digitChar (n % 10)] := by
  rw [natDec]
  rw [show natDecCore (n + 1) n [] = natDecCore n (n / 10) (digitChar (n % 10) :: []) by
    simp [natDecCore]; omega]
  exact natDecCore_eq (n / 10) n (digitChar (n % 10) :: [])
    (Nat.lt_of_lt_of_le (Nat.div_lt_self (by omega) (by omega)) (by omega))

/-- Single-digit case of `natDec`. -/
theorem natDec_small {n : ℕ} (h : n < 10) : natDec n = [digitChar n] := by
  simp [natDec, natDecCore, h]

/-- Code point of a digit character. -/
theorem digitChar_toNat {d : ℕ} (h : d < 10) : (digitChar d).toNat = 48 + d := by
  interval_cases d <;> decide

/-- Every character of a decimal representation is an ASCII digit. -/
theorem natDec_digits (n : ℕ) : ∀ c ∈ natDec n, 48 ≤ c.toNat ∧ c.toNat ≤ 57 := by
  induction n using Nat.strong_induction_on with
  | _ n ih =>
    intro c hc
    by_cases h10 : n < 10
    · rw [natDec_small h10] at hc
      simp at hc
      subst hc
      rw [digitChar_toNat h10]
      omega
    · rw [natDec_step (by omega)] at hc
      rcases List.mem_append.mp hc with h | h
      · exact ih (n / 10) (Nat.div_lt_self (by omega) (by omega)) c h
      · simp at h
        subst h
        rw [digitChar_toNat (Nat.mod_lt n (by omega))]
        omega

/-- The decimal representation parses back to its value. -/
theorem digsVal_natDec (n : ℕ) : digsVal (natDec n) = n := by
  induction n using Nat.strong_induction_on with
  | _ n ih =>
    by_cases h10 : n < 10
    · rw [natDec_small h10]
      simp [digsVal, digitChar_toNat h10]
    · rw [natDec_step (by omega)]
      have hrec := ih (n / 10) (Nat.div_lt_self (by omega) (by omega))
      simp only [digsVal, List.foldl_append, List.foldl_cons, List.foldl_nil]
      rw [show List.foldl (fun a c => 10 * a + (c.toNat - 48)) 0 (natDec (n / 10)) =
        digsVal (natDec (n / 10)) from rfl, hrec,
        digitChar_toNat (Nat.mod_lt n (by omega))]
      omega

/-- Decimal representations are nonempty. -/
theorem natDec_ne_nil (n : ℕ) : natDec n ≠ [] := by
  by_cases h10 : n < 10
  · rw [natDec_small h10]; simp
  · rw [natDec_step (by omega)]; simp

/-- Decimal representation is injective on naturals. -/
theorem natDec_inj {m n : ℕ} (h : natDec m = natDec n) : m = n := by
  have hm := digsVal_natDec m
  rw [h, digsVal_natDec] at hm
  omega

/-- Decimal representation is injective on integers. -/
theorem intDec_inj {m n : ℤ} (h : intDec m = intDec n) : m = n := by
  unfold intDec at h
  split_ifs at h with h1 h2 h2
  · have h3 : natDec (-m).toNat = natDec (-n).toNat := by
      have := congrArg List.tail h
      simpa using this
    have := natDec_inj h3
    omega
  · exfalso
    have hmem : '-' ∈ natDec n.toNat := by
      rw [← h]; exact List.mem_cons_self _ _
    have h45 : ('-' : Char).toNat = 45 := by decide
    have := natDec_digits n.toNat '-' hmem
    omega
  · exfalso
    have hmem : '-' ∈ natDec m.toNat := by
      rw [h]; exact List.mem_cons_self _ _
    have h45 : ('-' : Char).toNat = 45 := by decide
    have := natDec_digits m.toNat '-' hmem
    omega
  · have := natDec_inj h
    omega

/-- All characters of a decimal representation pass the digit test. -/
theorem natDec_all_digits (k : ℕ) : (natDec k).all isDigitC = true := by
  rw [List.all_eq_true]
  intro c hc
  have := natDec_digits k c hc
  simp only [isDigitC, Bool.and_eq_true, decide_eq_true_eq]
  omega

/-- Round trip of the page-count parser and the decimal printer: every
`int64`-representable integer printed in decimal parses back to itself. -/
theorem parseInt10_intDec {n : ℤ} (h1 : -(2 ^ 63) ≤ n) (h2 : n < 2 ^ 63) :
    parseInt10 (intDec n) = some n := by
  by_cases hneg : n < 0
  · rw [show intDec n = '-' :: natDec (-n).toNat by simp [intDec, hneg]]
    rw [parseInt10]
    have hv : (-n).toNat ≤ 2 ^ 63 := by omega
    have hcast : (((-n).toNat : ℤ)) = -n := Int.toNat_of_nonneg (by omega)
    simp [natDec_ne_nil, natDec_all_digits, digsVal_natDec, hv, hcast]
    omega
  · obtain ⟨c, rest, hcr⟩ := List.exists_cons_of_ne_nil (natDec_ne_nil n.toNat)
    have hdig : 48 ≤ c.toNat ∧ c.toNat ≤ 57 := by
      apply natDec_digits n.toNat
      rw [hcr]; exact List.mem_cons_self c rest
    have hcm : c ≠ '-' := by
      intro he; rw [he] at hdig; revert hdig; decide
    have hcp : c ≠ '+' := by
      intro he; rw [he] at hdig; revert hdig; decide
    have hm2 : (decide (c = '-')) = false := decide_eq_false hcm
    have hp2 : (decide (c = '+')) = false := decide_eq_false hcp
    rw [show intDec n = natDec n.toNat by simp [intDec, hneg], hcr, parseInt10]
    rw [← hcr]
    have hv : n.toNat < 2 ^ 63 := by omega
    have hcast : ((n.toNat : ℤ)) = n := Int.toNat_of_nonneg (by omega)
    simp [hm2, hp2, natDec_ne_nil, natDec_all_digits, digsVal_natDec, hv, hcast]
    omega

/-- A list whose characters all fail the predicate is untouched by
`dropWhile`. -/
theorem dropWhile_eq_self_of_none {p : Char → Bool} {l : List Char}
    (h : ∀ c ∈ l, p c = false) : l.dropWhile p = l := by
  cases l with
  | nil => rfl
  | cons a l =>
    rw [List.dropWhile_cons]
    simp [h a (List.mem_cons_self a l)]

/-- Trimming newlines from a newline-free payload followed by a single
trailing newline recovers the payload. -/
theorem trimNewlines_append {s : List Char} (h : ∀ c ∈ s, c ≠ '\n') :
    trimNewlines (s ++ [ '\n' ]) = s := by
  unfold trimNewlines
  cases s with
  | nil => decide
  | cons a s =>
    have ha : (decide (a = '\n')) = false := by
      simp [h a (List.mem_cons_self a s)]
    rw [List.cons_append, List.dropWhile_cons, ha]
    simp only [Bool.false_eq_true, if_false]
    rw [← List.cons_append, List.reverse_append]
    have h2 : (([ '\n' ] : List Char).reverse ++ (a :: s).reverse).dropWhile
        (fun c => decide (c = '\n')) =
        ((a :: s).reverse).dropWhile (fun c => decide (c = '\n')) := by
      simp [List.dropWhile_cons]
    rw [h2, dropWhile_eq_self_of_none (fun c hc => by
      simp [h c (List.mem_reverse.mp hc)]), List.reverse_reverse]

/-- Substituting two different page numbers into a template that contains
the placeholder yields different paths. -/
theorem sub_inj {t : List Char} (ht : containsPH t = true) {m n : ℤ}
    (he : sub t m = sub t n) : m = n := by
  unfold containsPH at ht
  rcases hs : splitAtPH t with _ | ⟨a, b⟩
  · rw [hs] at ht; simp at ht
  · unfold sub at he
    rw [hs] at he
    exact intDec_inj (List.append_cancel_left (List.append_cancel_right he))

/-- A percent-free first part passes through the placeholder search. -/
theorem splitAtPH_append {l1 : List Char} (h : ∀ c ∈ l1, c ≠ '%') (l2 : List Char) :
    splitAtPH (l1 ++ l2) = (splitAtPH l2).map (fun p => (l1 ++ p.1, p.2)) := by
  induction l1 with
  | nil =>
    simp only [List.nil_append]
    rcases splitAtPH l2 with _ | ⟨a, b⟩ <;> simp
  | cons c l1 ih =>
    rw [List.cons_append]
    rw [show splitAtPH (c :: (l1 ++ l2)) =
      if c = '%' ∧ (l1 ++ l2).head? = some 'd' then some ([], (l1 ++ l2).tail)
      else (splitAtPH (l1 ++ l2)).map (fun p => (c :: p.1, p.2)) from rfl]
    rw [if_neg (by intro hcon; exact h c (List.mem_cons_self c l1) hcon.1)]
    rw [ih (fun x hx => h x (List.mem_cons_of_mem c hx))]
    rcases splitAtPH l2 with _ | ⟨a, b⟩ <;> simp

/-- The partition loop emits nothing once the start exceeds the total. -/
theorem partitionLoop_stop {fuel : ℕ} {total pw first : ℤ} (h : total < first) :
    partitionLoop fuel total pw first = [] := by
  cases fuel with
  | zero => rfl
  | succ f => rw [partitionLoop, if_neg (by omega)]

/-- The empty partition of a nonpositive page count: the loop guard
`firstPage <= numPages` fails at once. -/
theorem partition_nil_of_nonpos {total w : ℤ} (h : total ≤ 0) : partition total w = [] := by
  unfold partition
  rw [Int.toNat_of_nonpos h]
  rfl

/-- Length of an integer range. -/
theorem intRangeLen_length (first : ℤ) (n : ℕ) : (intRangeLen first n).length = n := by
  induction n generalizing first with
  | zero => rfl
  | succ n ih => simp [intRangeLen, ih]

/-- Membership in an integer range. -/
theorem mem_intRangeLen {p first : ℤ} {n : ℕ} :
    p ∈ intRangeLen first n ↔ first ≤ p ∧ p < first + n := by
  induction n generalizing first with
  | zero => simp [intRangeLen]
  | succ n ih =>
    rw [intRangeLen]
    simp only [List.mem_cons, ih]
    push_cast
    omega

/-- Integer ranges have no duplicates. -/
theorem intRangeLen_nodup (first : ℤ) (n : ℕ) : (intRangeLen first n).Nodup := by
  induction n generalizing first with
  | zero => simp [intRangeLen]
  | succ n ih =>
    rw [intRangeLen]
    refine List.nodup_cons.mpr ⟨?_, ih (first + 1)⟩
    rw [mem_intRangeLen]
    omega

/-- Splitting an integer range. -/
theorem intRangeLen_append (a b : ℕ) : ∀ (first : ℤ),
    intRangeLen first (a + b) = intRangeLen first a ++ intRangeLen (first + a) b := by
  induction a with
  | zero => intro first; simp [intRangeLen]
  | succ a ih =>
    intro first
    rw [show a + 1 + b = (a + b) + 1 from by omega]
    rw [show intRangeLen first (a + b + 1) = first :: intRangeLen (first + 1) (a + b) from rfl]
    rw [show intRangeLen first (a + 1) = first :: intRangeLen (first + 1) a from rfl]
    rw [ih (first + 1)]
    rw [List.cons_append]
    rw [show first + 1 + (a : ℤ) = first + ((a : ℕ) + 1 : ℕ) by push_cast; ring]

/-- The pages of the emitted ranges, concatenated in order, are exactly the
interval from `first` to `total`: the partition loop covers every page once,
with no gap and no overlap. -/
theorem partitionLoop_pages {pw : ℤ} (hpw : 1 ≤ pw) :
    ∀ (fuel : ℕ) (first total : ℤ), (total + 1 - first).toNat ≤ fuel →
    (partitionLoop fuel total pw first).flatMap (fun r => intRange r.1 r.2) =
      intRange first total := by
  intro fuel
  induction fuel with
  | zero =>
    intro first total h
    unfold intRange
    rw [show partitionLoop 0 total pw first = [] from rfl]
    rw [show (total + 1 - first).toNat = 0 from by omega]
    rfl
  | succ fuel ih =>
    intro first total h
    by_cases hft : first ≤ total
    · rw [partitionLoop, if_pos hft, List.flatMap_cons]
      dsimp only
      rcases le_or_lt (first + pw - 1) total with hm | hm
      · rw [min_eq_left hm]
        rw [ih (first + pw) total (by omega)]
        unfold intRange
        rw [show (first + pw - 1 + 1 - first).toNat = pw.toNat from by omega]
        rw [show (total + 1 - first).toNat = pw.toNat + (total + 1 - (first + pw)).toNat
          from by omega]
        rw [intRangeLen_append]
        rw [show first + (pw.toNat : ℤ) = first + pw from by omega]
      · rw [min_eq_right (by omega)]
        rw [ih (first + pw) total (by omega)]
        unfold intRange
        rw [show (total + 1 - (first + pw)).toNat = 0 from by omega]
        simp [intRangeLen]
    · rw [partitionLoop, if_neg hft]
      unfold intRange
      rw [show (total + 1 - first).toNat = 0 from by omega]
      rfl

/-- Every emitted range lies between the loop start and the total, and is
well formed. -/
theorem partitionLoop_bounds {pw : ℤ} (hpw : 1 ≤ pw) :
    ∀ (fuel : ℕ) (first total : ℤ) (r : ℤ × ℤ), r ∈ partitionLoop fuel total pw first →
    first ≤ r.1 ∧ r.1 ≤ r.2 ∧ r.2 ≤ total := by
  intro fuel
  induction fuel with
  | zero => intro first total r h; simp [partitionLoop] at h
  | succ fuel ih =>
    intro first total r h
    by_cases hft : first ≤ total
    · rw [partitionLoop, if_pos hft] at h
      rcases List.mem_cons.mp h with heq | h
      · rw [heq]
        exact ⟨le_refl _, le_min (by omega) hft, min_le_right _ _⟩
      · have := ih (first + pw) total r h
        exact ⟨by omega, this.2.1, this.2.2⟩
    · rw [partitionLoop, if_neg hft] at h
      simp at h

/-- The emitted ranges are pairwise ordered and disjoint: each range ends
strictly before any later range starts. -/
theorem partitionLoop_pairwise {pw : ℤ} (hpw : 1 ≤ pw) :
    ∀ (fuel : ℕ) (first total : ℤ),
    List.Pairwise (fun a b : ℤ × ℤ => a.2 < b.1) (partitionLoop fuel total pw first) := by
  intro fuel
  induction fuel with
  | zero => intro first total; simp [partitionLoop]
  | succ fuel ih =>
    intro first total
    by_cases hft : first ≤ total
    · rw [partitionLoop, if_pos hft]
      refine List.pairwise_cons.mpr ⟨?_, ih (first + pw) total⟩
      intro b hb
      have hbb := partitionLoop_bounds hpw fuel (first + pw) total b hb
      have hm : (first, min (first + pw - 1) total).2 ≤ first + pw - 1 := min_le_left _ _
      omega
    · rw [partitionLoop, if_neg hft]
      simp

/-- The loop emits at most `k` ranges when `k * pw` covers the remaining
pages. -/
theorem partitionLoop_length {pw : ℤ} (_hpw : 1 ≤ pw) :
    ∀ (fuel : ℕ) (first total k : ℤ), 0 ≤ k → total + 1 - first ≤ k * pw →
    ((partitionLoop fuel total pw first).length : ℤ) ≤ k := by
  intro fuel
  induction fuel with
  | zero => intro first total k hk h; simpa [partitionLoop] using hk
  | succ fuel ih =>
    intro first total k hk h
    by_cases hft : first ≤ total
    · rw [partitionLoop, if_pos hft]
      have hk1 : 1 ≤ k := by
        by_contra hlt
        have hk0 : k = 0 := by omega
        rw [hk0, zero_mul] at h
        omega
      have hrec := ih (first + pw) total (k - 1) (by omega) (by
        rw [sub_mul, one_mul]
        omega)
      rw [List.length_cons]
      push_cast
      omega
    · rw [partitionLoop, if_neg hft]
      simpa using hk

/-- Sizes of the emitted ranges: all ranges have length `pw` except the
last, whose length is the remainder of the page count modulo `pw` (or a full
`pw` when the division is exact). -/
theorem partitionLoop_sizes {pw : ℤ} (hpw : 1 ≤ pw) :
    ∀ (fuel : ℕ) (first total : ℤ), (total + 1 - first).toNat ≤ fuel → first ≤ total →
    (∀ r ∈ (partitionLoop fuel total pw first).dropLast, r.2 + 1 - r.1 = pw) ∧
    (∀ h : partitionLoop fuel total pw first ≠ [],
      ((partitionLoop fuel total pw first).getLast h).2 = total ∧
      ((partitionLoop fuel total pw first).getLast h).2 + 1 -
        ((partitionLoop fuel total pw first).getLast h).1 =
        (if (total + 1 - first) % pw = 0 then pw else (total + 1 - first) % pw)) := by
  intro fuel
  induction fuel with
  | zero => intro first total hf hft; exact absurd hft (by omega)
  | succ fuel ih =>
    intro first total hf hft
    rw [partitionLoop, if_pos hft]
    by_cases hend : total < first + pw
    · have htail : partitionLoop fuel total pw (first + pw) = [] :=
        partitionLoop_stop (by omega)
      rw [htail]
      rw [min_eq_right (by omega)]
      constructor
      · intro r hr
        rw [List.dropLast_single] at hr
        exact absurd hr (List.not_mem_nil r)
      · intro h
        rw [List.getLast_singleton]
        refine ⟨rfl, ?_⟩
        have hR1 : 1 ≤ total + 1 - first := by omega
        have hR2 : total + 1 - first ≤ pw := by omega
        rcases eq_or_lt_of_le hR2 with he | hl
        · rw [he, Int.emod_self]
          simp
        · rw [Int.emod_eq_of_lt (by omega) hl, if_neg (by omega)]
    · have hftail : first + pw ≤ total := by omega
      have ihh := ih (first + pw) total (by omega) hftail
      have htne : partitionLoop fuel total pw (first + pw) ≠ [] := by
        cases fuel with
        | zero => exact absurd hf (by omega)
        | succ f =>
          rw [partitionLoop, if_pos hftail]
          simp
      rw [min_eq_left (by omega)]
      constructor
      · intro r hr
        rw [List.dropLast_cons_of_ne_nil htne] at hr
        rcases List.mem_cons.mp hr with heq | hr
        · rw [heq]
          dsimp only
          omega
        · exact ihh.1 r hr
      · intro h
        rw [List.getLast_cons htne]
        have hmod : (total + 1 - (first + pw)) % pw = (total + 1 - first) % pw := by
          rw [show total + 1 - (first + pw) = (total + 1 - first) - pw from by ring]
          rw [Int.sub_emod, Int.emod_self, sub_zero, Int.emod_emod_of_dvd _ dvd_rfl]
        rw [← hmod]
        exact ihh.2 htne

/-- The ceiling division covers the dividend: `b * ceil(a/b) ≥ a`. -/
theorem le_mul_ceilDiv {a b : ℤ} (hb : 1 ≤ b) : a ≤ b * ceilDiv a b := by
  unfold ceilDiv
  have h1 := Int.ediv_add_emod (a + b - 1) b
  have h2 := Int.emod_nonneg (a + b - 1) (by omega : b ≠ 0)
  have h3 := Int.emod_lt_of_pos (a + b - 1) (by omega : (0 : ℤ) < b)
  linarith

/-- The ceiling division of a positive dividend is positive. -/
theorem ceilDiv_pos {a b : ℤ} (ha : 1 ≤ a) (hb : 1 ≤ b) : 1 ≤ ceilDiv a b := by
  by_contra hlt
  have hc : ceilDiv a b ≤ 0 := by omega
  have hle := @le_mul_ceilDiv a b hb
  have hmul : b * ceilDiv a b ≤ 0 := mul_nonpos_iff.mpr (Or.inl ⟨by omega, hc⟩)
  omega

/-- With every upload succeeding, one worker's trace is exactly the three
per-page uploads for each page of its range, in order. -/
theorem uploadRange_all (jp sp lp rjp rsp rlp : List Char) :
    ∀ (fuel : ℕ) (first : ℤ),
    uploadRange (fun _ => true) jp sp lp rjp rsp rlp fuel first =
      (intRangeLen first fuel).flatMap (pageOps jp sp lp rjp rsp rlp) := by
  intro fuel
  induction fuel with
  | zero => intro first; rfl
  | succ fuel ih =>
    intro first
    rw [show intRangeLen first (fuel + 1) = first :: intRangeLen (first + 1) fuel from rfl]
    rw [List.flatMap_cons, ← ih (first + 1)]
    rfl

/-- Sum of a function over a duplicate-free list containing `a`, when the
function is `1` at `a` and `0` elsewhere on the list. -/
theorem sum_map_eq_one {α : Type} {l : List α} {a : α} {g : α → ℕ}
    (hmem : a ∈ l) (hnd : l.Nodup) (hga : g a = 1) (hg0 : ∀ b ∈ l, b ≠ a → g b = 0) :
    (l.map g).sum = 1 := by
  induction l with
  | nil => simp at hmem
  | cons b l ih =>
    rw [List.map_cons, List.sum_cons]
    rcases List.mem_cons.mp hmem with rfl | hmem'
    · rw [hga]
      have hz : ∀ x ∈ l, g x = 0 := by
        intro x hx
        apply hg0 x (List.mem_cons_of_mem _ hx)
        intro hxa
        subst hxa
        exact (List.nodup_cons.mp hnd).1 hx
      have hzero : (l.map g).sum = 0 := by
        apply List.sum_eq_zero
        intro y hy
        obtain ⟨x, hx, rfl⟩ := List.mem_map.mp hy
        exact hz x hx
      omega
    · have hb0 : g b = 0 := hg0 b (List.mem_cons_self b l) (by
        intro hba
        subst hba
        exact (List.nodup_cons.mp hnd).1 hmem')
      rw [hb0]
      have := ih hmem' (List.nodup_cons.mp hnd).2
        (fun x hx hxa => hg0 x (List.mem_cons_of_mem _ hx) hxa)
      omega

/-- Claim C2: for every `total ≥ 0` and `workerCount ≥ 1`, the ranges
produced by the partition loop (start at page 1, step
`perWorker = ceil(total/workerCount)`, clamp the last end to `total`)
concatenate to exactly the pages `[1, total]` in order (hence are pairwise
non-overlapping, sorted by start, with union exactly `[1, total]`), each lie
within `[1, total]`, end strictly before the next begins, number at most
`workerCount`, and form the empty sequence when `total = 0`. -/
theorem C2_partition_covers (total w : ℤ) (h0 : 0 ≤ total) (hw : 1 ≤ w) :
    ((partition total w).flatMap (fun r => intRange r.1 r.2) = intRange 1 total) ∧
    (∀ r ∈ partition total w, 1 ≤ r.1 ∧ r.1 ≤ r.2 ∧ r.2 ≤ total) ∧
    List.Pairwise (fun a b : ℤ × ℤ => a.2 < b.1) (partition total w) ∧
    ((partition total w).length : ℤ) ≤ w ∧
    (total = 0 → partition total w = []) := by
  rcases eq_or_lt_of_le h0 with h00 | hpos
  · have hz : partition total w = [] := partition_nil_of_nonpos (by omega)
    rw [hz]
    refine ⟨?_, by simp, by simp, by simp; omega, fun _ => rfl⟩
    unfold intRange
    rw [show (total + 1 - 1).toNat = 0 from by omega]
    rfl
  · have hpw : 1 ≤ ceilDiv total w := ceilDiv_pos (by omega) hw
    unfold partition
    refine ⟨?_, ?_, ?_, ?_, ?_⟩
    · exact partitionLoop_pages hpw total.toNat 1 total (by omega)
    · intro r hr
      exact partitionLoop_bounds hpw total.toNat 1 total r hr
    · exact partitionLoop_pairwise hpw total.toNat 1 total
    · refine partitionLoop_length hpw total.toNat 1 total w (by omega) ?_
      have := @le_mul_ceilDiv total w hw
      omega
    · intro h00
      omega

/-- Witness for C2 at the spec §8 scenario `total = 6`, `workerCount = 2`. -/
theorem C2_partition_covers_witness :
    (0 : ℤ) ≤ 6 ∧ (1 : ℤ) ≤ 2 ∧
    (partition 6 2).flatMap (fun r => intRange r.1 r.2) = intRange 1 6 :=
  ⟨by norm_num, by norm_num, (C2_partition_covers 6 2 (by norm_num) (by norm_num)).1⟩

/-- Claim C3: every range produced by the partition loop has length
`ceil(total/workerCount)`, except possibly the last, whose length is
`total mod ceil(total/workerCount)` when that remainder is nonzero and the
full `ceil(total/workerCount)` when the division is exact. -/
theorem C3_range_sizes (total w : ℤ) (h0 : 0 ≤ total) (hw : 1 ≤ w) :
    (∀ r ∈ (partition total w).dropLast, r.2 + 1 - r.1 = ceilDiv total w) ∧
    (∀ h : partition total w ≠ [],
      ((partition total w).getLast h).2 + 1 - ((partition total w).getLast h).1 =
        (if total % ceilDiv total w = 0 then ceilDiv total w
         else total % ceilDiv total w)) := by
  rcases eq_or_lt_of_le h0 with h00 | hpos
  · have hz : partition total w = [] := partition_nil_of_nonpos (by omega)
    constructor
    · intro r hr
      rw [hz] at hr
      simp at hr
    · intro h
      exact absurd hz h
  · have hpw : 1 ≤ ceilDiv total w := ceilDiv_pos (by omega) hw
    unfold partition
    have hs := partitionLoop_sizes hpw total.toNat 1 total (by omega) (by omega)
    rw [show total + 1 - 1 = total from by ring] at hs
    exact ⟨hs.1, fun h => (hs.2 h).2⟩

/-- Witness for C3 at `total = 7`, `workerCount = 2`: the last of the two
ranges is short. -/
theorem C3_range_sizes_witness :
    (0 : ℤ) ≤ 7 ∧ (1 : ℤ) ≤ 2 ∧
    (∀ r ∈ (partition 7 2).dropLast, r.2 + 1 - r.1 = ceilDiv 7 2) :=
  ⟨by norm_num, by norm_num, (C3_range_sizes 7 2 (by norm_num) (by norm_num)).1⟩

/-- An upload appearing among the per-page triple of some page of a
duplicate-free page list appears exactly once in the concatenated upload
plan: pages are distinct and the three variants of one page are distinct. -/
theorem count_flatMap_pageOps {jp sp lp rjp rsp rlp : List Char} {l : List ℤ}
    (hnd : l.Nodup) {p : ℤ} (hp : p ∈ l) (x : UploadOp)
    (hx : x ∈ pageOps jp sp lp rjp rsp rlp p) :
    (l.flatMap (pageOps jp sp lp rjp rsp rlp)).count x = 1 := by
  rw [List.count_flatMap]
  apply sum_map_eq_one hp hnd
  · simp only [Function.comp]
    rcases (by simpa [pageOps] using hx :
        x = ⟨ImageVariant.normal, p, sub jp p, sub rjp p⟩ ∨
        x = ⟨ImageVariant.small, p, sub sp p, sub rsp p⟩ ∨
        x = ⟨ImageVariant.large, p, sub lp p, sub rlp p⟩) with rfl | rfl | rfl <;>
      simp [pageOps, List.count_cons]
  · intro b hb hbp
    simp only [Function.comp]
    have hxp : x.pageNum = p := by
      rcases (by simpa [pageOps] using hx :
          x = ⟨ImageVariant.normal, p, sub jp p, sub rjp p⟩ ∨
          x = ⟨ImageVariant.small, p, sub sp p, sub rsp p⟩ ∨
          x = ⟨ImageVariant.large, p, sub lp p, sub rlp p⟩) with rfl | rfl | rfl <;> rfl
    rw [List.count_eq_zero]
    intro hmem
    have hxb : x.pageNum = b := by
      rcases (by simpa [pageOps] using hmem :
          x = ⟨ImageVariant.normal, b, sub jp b, sub rjp b⟩ ∨
          x = ⟨ImageVariant.small, b, sub sp b, sub rsp b⟩ ∨
          x = ⟨ImageVariant.large, b, sub lp b, sub rlp b⟩) with rfl | rfl | rfl <;> rfl
    exact hbp (by omega)

/-- Claim C1: for a document with `N ≥ 1` pages, a fully successful upload
phase (all three remote templates present once and carrying the
placeholder, every store write succeeding) performs exactly `3N` store
writes, namely for each page `1..N` the normal, small and large variants at
the corresponding substituted remote paths, each page/variant pair exactly
once. -/
theorem C1_successful_run (tN tS tL jp sp lp : List Char) (N : ℤ) (hN : 1 ≤ N)
    (hcN : containsPH tN = true) (hcS : containsPH tS = true)
    (hcL : containsPH tL = true) :
    uploadAllJPEGsToS3 (fun _ => true) ⟨some [tN], some [tS], some [tL]⟩ jp sp lp N =
      .ok (specUploads jp sp lp tN tS tL N) ∧
    (specUploads jp sp lp tN tS tL N).length = 3 * N.toNat ∧
    (∀ p : ℤ, 1 ≤ p → p ≤ N →
      (specUploads jp sp lp tN tS tL N).count
        ⟨ImageVariant.normal, p, sub jp p, sub tN p⟩ = 1 ∧
      (specUploads jp sp lp tN tS tL N).count
        ⟨ImageVariant.small, p, sub sp p, sub tS p⟩ = 1 ∧
      (specUploads jp sp lp tN tS tL N).count
        ⟨ImageVariant.large, p, sub lp p, sub tL p⟩ = 1) := by
  have hw10 : (1 : ℤ) ≤ NUM_WORKERS_UPLOAD := by decide
  have hpw : 1 ≤ ceilDiv N NUM_WORKERS_UPLOAD := ceilDiv_pos (by omega) hw10
  refine ⟨?_, ?_, ?_⟩
  · have hmain : uploadAllJPEGsToS3 (fun _ => true)
        ⟨some [tN], some [tS], some [tL]⟩ jp sp lp N =
        .ok ((partition N NUM_WORKERS_UPLOAD).flatMap
          (fun r => uploadRange (fun _ => true) jp sp lp tN tS tL
            (r.2 + 1 - r.1).toNat r.1)) := by
      simp [uploadAllJPEGsToS3, hcN, hcS, hcL]
    rw [hmain]
    have h1 : ∀ r : ℤ × ℤ,
        uploadRange (fun _ => true) jp sp lp tN tS tL (r.2 + 1 - r.1).toNat r.1 =
        (intRange r.1 r.2).flatMap (pageOps jp sp lp tN tS tL) := by
      intro r
      rw [uploadRange_all]
      rfl
    simp only [h1]
    rw [← List.flatMap_assoc (partition N NUM_WORKERS_UPLOAD)
      (fun r : ℤ × ℤ => intRange r.1 r.2) (pageOps jp sp lp tN tS tL)]
    unfold partition
    rw [partitionLoop_pages hpw N.toNat 1 N (by omega)]
    rfl
  · have hlen : ∀ (n : ℕ) (first : ℤ),
        ((intRangeLen first n).flatMap (pageOps jp sp lp tN tS tL)).length = 3 * n := by
      intro n
      induction n with
      | zero => intro first; rfl
      | succ n ih =>
        intro first
        rw [show intRangeLen first (n + 1) = first :: intRangeLen (first + 1) n from rfl]
        rw [List.flatMap_cons, List.length_append, ih (first + 1)]
        simp [pageOps]
        ring
    unfold specUploads intRange
    rw [hlen]
    rw [show (N + 1 - 1).toNat = N.toNat from by omega]
  · intro p hp1 hpN
    have hmem : p ∈ intRange 1 N := by
      unfold intRange
      rw [mem_intRangeLen]
      omega
    have hnd : (intRange 1 N).Nodup := intRangeLen_nodup 1 _
    unfold specUploads
    refine ⟨?_, ?_, ?_⟩ <;>
      exact count_flatMap_pageOps hnd hmem _ (by simp [pageOps])

/-- Witness for C1 at a two-page job with concrete templates. -/
theorem C1_successful_run_witness :
    (1 : ℤ) ≤ 2 ∧ containsPH (str ("a%d")) = true ∧
    uploadAllJPEGsToS3 (fun _ => true)
      ⟨some [str ("a%d")], some [str ("b%d")], some [str ("c%d")]⟩
      (str ("j%d")) (str ("s%d")) (str ("l%d")) 2 =
      .ok (specUploads (str ("j%d")) (str ("s%d")) (str ("l%d"))
        (str ("a%d")) (str ("b%d")) (str ("c%d")) 2) :=
  ⟨by norm_num, by decide,
    (C1_successful_run (str ("a%d")) (str ("b%d")) (str ("c%d"))
      (str ("j%d")) (str ("s%d")) (str ("l%d")) 2 (by norm_num)
      (by decide) (by decide) (by decide)).1⟩

/-- No character of a printed integer is a newline. -/
theorem intDec_no_newline (n : ℤ) : ∀ c ∈ intDec n, c ≠ '\n' := by
  intro c hc
  unfold intDec at hc
  split_ifs at hc with h
  · rcases List.mem_cons.mp hc with rfl | hc
    · decide
    · have := natDec_digits _ c hc
      intro he
      subst he
      revert this
      decide
  · have := natDec_digits _ c hc
    intro he
    subst he
    revert this
    decide

/-- A field passing the three checks of `uploadAllJPEGsToS3` is not
malformed. -/
theorem not_malformed_of_checks {f : Option (List (List Char))}
    (h1 : ¬(f.isNone = true)) (h2 : ¬((f.getD []).length ≠ 1))
    (h3 : ¬(containsPH ((f.getD []).headD []) = false)) :
    malformedField f = false := by
  have e1 : f.isNone = false := by
    cases hf : f.isNone with
    | false => rfl
    | true => exact absurd hf h1
  have e2 : (f.getD []).length = 1 := by omega
  have e3 : containsPH ((f.getD []).headD []) = true := by
    cases hc : containsPH ((f.getD []).headD []) with
    | false => exact absurd hc h3
    | true => rfl
  simp [malformedField, e1, e2]
  simpa using e3

/-- Claim C5: the upload phase returns a validation error — performing no
store write and spawning no upload worker, since the error return precedes
the partition loop — whenever any of the three remote-template form fields
is absent, carries a number of values different from one, or lacks the
page-number placeholder; each malformation suffices on its own. -/
theorem C5_validation_rejects (ok : UploadOp → Bool) (form : UploadForm)
    (jp sp lp : List Char) (N : ℤ)
    (h : malformedField form.s3JPEGPath = true ∨
         malformedField form.s3SmallJPEGPath = true ∨
         malformedField form.s3LargeJPEGPath = true) :
    ∃ e, uploadAllJPEGsToS3 ok form jp sp lp N = .error e := by
  simp only [uploadAllJPEGsToS3]
  split_ifs with h1 h2 h3 h4 h5 h6 h7 h8 h9
  case pos => exact ⟨_, rfl⟩
  case pos => exact ⟨_, rfl⟩
  case pos => exact ⟨_, rfl⟩
  case pos => exact ⟨_, rfl⟩
  case pos => exact ⟨_, rfl⟩
  case pos => exact ⟨_, rfl⟩
  case pos => exact ⟨_, rfl⟩
  case pos => exact ⟨_, rfl⟩
  case pos => exact ⟨_, rfl⟩
  case neg =>
    exfalso
    rcases h with h | h | h
    · rw [not_malformed_of_checks h1 h4 h7] at h
      exact Bool.false_ne_true h
    · rw [not_malformed_of_checks h2 h5 h8] at h
      exact Bool.false_ne_true h
    · rw [not_malformed_of_checks h3 h6 h9] at h
      exact Bool.false_ne_true h

/-- Witness for C5: a doubled `s3JPEGPath` value is rejected. -/
theorem C5_validation_rejects_witness :
    malformedField (some [str ("a%d"), str ("a%d")]) = true ∧
    ∃ e, uploadAllJPEGsToS3 (fun _ => true)
      ⟨some [str ("a%d"), str ("a%d")], some [str ("b%d")], some [str ("c%d")]⟩
      (str ("j%d")) (str ("s%d")) (str ("l%d")) 3 = .error e :=
  ⟨by decide, C5_validation_rejects (fun _ => true)
    ⟨some [str ("a%d"), str ("a%d")], some [str ("b%d")], some [str ("c%d")]⟩
    (str ("j%d")) (str ("s%d")) (str ("l%d")) 3 (Or.inl (by decide))⟩

/-- Claim C6: the variant templates are obtained from the base template by
inserting the literal `-small` / `-large` suffix immediately after the
placeholder before substitution — for the local intermediate templates of
`convert` (built over a percent-free random stem) and for the
`strings.Replace`-derived remote targets of the earlier revision — and the
example template resolves as the spec states. -/
theorem C6_variant_suffix (stem : List Char) (hstem : ∀ c ∈ stem, c ≠ '%') :
    smallJPEGLocalTemplate stem = replaceFirstPH (jpegLocalTemplate stem) (str ("-small")) ∧
    largeJPEGLocalTemplate stem = replaceFirstPH (jpegLocalTemplate stem) (str ("-large")) ∧
    replaceFirstPH (str ("page%d.jpg")) (str ("-small")) = str ("page%d-small.jpg") ∧
    replaceFirstPH (str ("page%d.jpg")) (str ("-large")) = str ("page%d-large.jpg") ∧
    sub (str ("page%d-small.jpg")) 3 = str ("page3-small.jpg") ∧
    sub (str ("page%d-large.jpg")) 3 = str ("page3-large.jpg") := by
  have htmp : ∀ c ∈ str ("/tmp/"), c ≠ '%' := by decide
  have hno : ∀ c ∈ (str ("/tmp/") ++ stem), c ≠ '%' := by
    intro c hc
    rcases List.mem_append.mp hc with h | h
    · exact htmp c h
    · exact hstem c h
  have hsplit : splitAtPH (jpegLocalTemplate stem) =
      some (str ("/tmp/") ++ stem, str (".jpg")) := by
    unfold jpegLocalTemplate
    rw [splitAtPH_append hno (str ("%d.jpg"))]
    rw [show splitAtPH (str ("%d.jpg")) = some ([], str (".jpg")) from by decide]
    simp
  have hrepl : ∀ sfx : List Char, replaceFirstPH (jpegLocalTemplate stem) sfx =
      (str ("/tmp/") ++ stem) ++ '%' :: 'd' :: (sfx ++ str (".jpg")) := by
    intro sfx
    unfold replaceFirstPH
    rw [hsplit]
  refine ⟨?_, ?_, by decide, by decide, by decide, by decide⟩
  · rw [hrepl]
    rw [show ('%' :: 'd' :: (str ("-small") ++ str (".jpg"))) = str ("%d-small.jpg")
      from by decide]
    rfl
  · rw [hrepl]
    rw [show ('%' :: 'd' :: (str ("-large") ++ str (".jpg"))) = str ("%d-large.jpg")
      from by decide]
    rfl

/-- Witness for C6 at the concrete stem `abc`. -/
theorem C6_variant_suffix_witness :
    (∀ c ∈ str ("abc"), c ≠ '%') ∧
    smallJPEGLocalTemplate (str ("abc")) =
      replaceFirstPH (jpegLocalTemplate (str ("abc"))) (str ("-small")) :=
  ⟨by decide, (C6_variant_suffix (str ("abc")) (by decide)).1⟩

/-- Claim C8: placeholder substitution is injective in the page number for
every fixed template accepted by validation (one containing `%d`). -/
theorem C8_substitution_injective (t : List Char) (ht : containsPH t = true)
    (m n : ℤ) (hmn : m ≠ n) : sub t m ≠ sub t n :=
  fun he => hmn (sub_inj ht he)

/-- Witness for C8 on the spec's example template. -/
theorem C8_substitution_injective_witness :
    containsPH (str ("page%d.jpg")) = true ∧ ((1 : ℤ) ≠ 2) ∧
    sub (str ("page%d.jpg")) 1 ≠ sub (str ("page%d.jpg")) 2 :=
  ⟨by decide, by decide,
    C8_substitution_injective (str ("page%d.jpg")) (by decide) 1 2 (by decide)⟩

/-- Claim C4 (code evidence): with the rasterizer succeeding and the first
resizer failing on every page, the conversion worker still performs the
second resize and continues through every later page of its range — the
source discards the `resizeAndSaveImage` errors, so a resizer failure never
causes the early return the claim describes; a rasterizer failure does stop
the worker at once, and the coordinator reports success with the page count
regardless. -/
theorem C4_resize_failure_ignored :
    convertRange (fun _ => true) (fun _ => false) (fun _ => true) 2 1 =
      [ConvEvent.raster 1, ConvEvent.resizeNormal 1, ConvEvent.resizeSmall 1,
       ConvEvent.raster 2, ConvEvent.resizeNormal 2, ConvEvent.resizeSmall 2] ∧
    convertRange (fun _ => false) (fun _ => true) (fun _ => true) 2 1 =
      [ConvEvent.raster 1] ∧
    convertPDFToJPEGs (.ok 2) (fun _ => true) (fun _ => false) (fun _ => true) =
      .ok (2, [ConvEvent.raster 1, ConvEvent.resizeNormal 1, ConvEvent.resizeSmall 1,
        ConvEvent.raster 2, ConvEvent.resizeNormal 2, ConvEvent.resizeSmall 2]) := by
  refine ⟨rfl, rfl, rfl⟩

/-- Claim C7 counterexample: on captured output `" 5\n"` the code trims
only newlines and fails to parse, while the claim's whitespace-trimming
reading parses the page count 5. -/
theorem C7_counterexample :
    getNumPages (.ok (str (" 5\n"))) = .error ("strconv.ParseInt: invalid syntax") ∧
    trimWhitespace (str (" 5\n")) = str ("5") ∧
    parseInt10 (str ("5")) = some 5 ∧
    getNumPagesSpec (.ok (str (" 5\n"))) = .ok 5 := by
  refine ⟨rfl, rfl, rfl, rfl⟩

/-- Unfolding of `getNumPages` on a successful invocation. -/
theorem getNumPages_ok (bytes : List Char) :
    getNumPages (.ok bytes) =
      (match parseInt10 (trimNewlines bytes) with
       | none => (.error ("strconv.ParseInt: invalid syntax") : Except String ℤ)
       | some n => .ok n) := rfl

/-- Unfolding of `convertPDFToJPEGs` on a successful page count. -/
theorem convertPDFToJPEGs_ok (numPages : ℤ) (rOk rN rS : ℤ → Bool) :
    convertPDFToJPEGs (.ok numPages) rOk rN rS =
      .ok (numPages, (partition numPages NUM_WORKERS_CONVERT).flatMap
        (fun r => convertRange rOk rN rS (r.2 + 1 - r.1).toNat r.1)) := rfl

/-- Claim C7 as amended: `getNumPages` trims surrounding *newlines* (not
all whitespace) from the captured output and parses it in base 10,
returning the parsed integer on success; an invocation failure or a parse
failure yields an error, with no fallback page-count strategy. -/
theorem C7_amended :
    (∀ e, getNumPages (.error e) = .error e) ∧
    (∀ n : ℤ, -(2 ^ 63) ≤ n → n < 2 ^ 63 →
      getNumPages (.ok (intDec n ++ [ '\n' ])) = .ok n) ∧
    (∀ bytes, parseInt10 (trimNewlines bytes) = none →
      ∃ e, getNumPages (.ok bytes) = .error e) := by
  refine ⟨fun e => rfl, ?_, ?_⟩
  · intro n h1 h2
    rw [getNumPages_ok, trimNewlines_append (intDec_no_newline n),
      parseInt10_intDec h1 h2]
  · intro bytes hb
    rw [getNumPages_ok, hb]
    exact ⟨_, rfl⟩

/-- Witness for the amended C7 at page count 6. -/
theorem C7_amended_witness :
    (-(2 ^ 63) : ℤ) ≤ 6 ∧ (6 : ℤ) < 2 ^ 63 ∧
    getNumPages (.ok (intDec 6 ++ [ '\n' ])) = .ok 6 :=
  ⟨by norm_num, by norm_num, C7_amended.2.1 6 (by norm_num) (by norm_num)⟩

/-- Claim C10: when page counting yields an integer `numPages ≤ 0` (which
the parser accepts — e.g. a negative decimal — and neither coordinator
validates), the conversion coordinator spawns no worker and returns the
count without error, and the upload coordinator (with well-formed
templates) spawns no worker, performs no store write, and returns without
error, so the request reports overall success. -/
theorem C10_nonpositive_count (N : ℤ) (hN : N ≤ 0) (hN63 : -(2 ^ 63) ≤ N)
    (ok : UploadOp → Bool) (rOk rN rS : ℤ → Bool) (tN tS tL jp sp lp : List Char)
    (hcN : containsPH tN = true) (hcS : containsPH tS = true)
    (hcL : containsPH tL = true) :
    getNumPages (.ok (intDec N ++ [ '\n' ])) = .ok N ∧
    partition N NUM_WORKERS_CONVERT = [] ∧
    partition N NUM_WORKERS_UPLOAD = [] ∧
    convertPDFToJPEGs (.ok N) rOk rN rS = .ok (N, []) ∧
    uploadAllJPEGsToS3 ok ⟨some [tN], some [tS], some [tL]⟩ jp sp lp N = .ok [] := by
  refine ⟨?_, partition_nil_of_nonpos hN, partition_nil_of_nonpos hN, ?_, ?_⟩
  · rw [getNumPages_ok, trimNewlines_append (intDec_no_newline N),
      parseInt10_intDec hN63 (by omega)]
  · rw [convertPDFToJPEGs_ok, partition_nil_of_nonpos hN]
    rfl
  · simp [uploadAllJPEGsToS3, hcN, hcS, hcL, partition_nil_of_nonpos hN]

/-- Witness for C10 at `numPages = -3`. -/
theorem C10_nonpositive_count_witness :
    ((-3 : ℤ) ≤ 0) ∧ ((-(2 ^ 63) : ℤ) ≤ -3) ∧
    uploadAllJPEGsToS3 (fun _ => true)
      ⟨some [str ("a%d")], some [str ("b%d")], some [str ("c%d")]⟩
      (str ("j%d")) (str ("s%d")) (str ("l%d")) (-3) = .ok [] :=
  ⟨by norm_num, by norm_num,
    (C10_nonpositive_count (-3) (by norm_num) (by norm_num) (fun _ => true)
      (fun _ => true) (fun _ => true) (fun _ => true)
      (str ("a%d")) (str ("b%d")) (str ("c%d"))
      (str ("j%d")) (str ("s%d")) (str ("l%d"))
      (by decide) (by decide) (by decide)).2.2.2.2⟩

/-- Half-to-even rounding fixes integers. -/
theorem roundHalfEven_intCast (k : ℤ) : roundHalfEven (k : ℚ) = k := by
  unfold roundHalfEven
  rw [Int.floor_intCast, sub_self, if_pos (by norm_num : (0:ℚ) < 1 / 2)]

/-- Half-to-even rounding moves a value by at most one half. -/
theorem roundHalfEven_bounds (y : ℚ) :
    y - 1 / 2 ≤ (roundHalfEven y : ℚ) ∧ (roundHalfEven y : ℚ) ≤ y + 1 / 2 := by
  have h1 : (⌊y⌋ : ℚ) ≤ y := Int.floor_le y
  have h2 : y < ⌊y⌋ + 1 := Int.lt_floor_add_one y
  unfold roundHalfEven
  split_ifs with ha hb hc <;> constructor <;> push_cast <;> linarith

/-- Values whose significand is an integer are fixed points of the
`float64` rounding. -/
theorem floatRound_of_int_signif {x : ℚ} (hx : 0 < x)
    (hm : ∃ k : ℤ, x * 2 ^ ((52 : ℤ) - Int.log 2 x) = (k : ℚ)) : floatRound x = x := by
  obtain ⟨k, hk⟩ := hm
  unfold floatRound
  rw [if_neg (ne_of_gt hx), if_pos hx, hk, roundHalfEven_intCast, ← hk]
  rw [mul_assoc, ← zpow_add₀ (by norm_num : (2:ℚ) ≠ 0)]
  rw [show (52:ℤ) - Int.log 2 x + (Int.log 2 x - 52) = 0 from by ring]
  rw [zpow_zero, mul_one]

/-- A positive multiple of `2^s` not exceeding `2^(53+s)` is exactly
representable as a `float64`, hence a fixed point of the rounding. -/
theorem floatRound_eq_self (s : ℤ) {x : ℚ} (hx : 0 < x)
    (hub : x ≤ 2 ^ ((53 : ℤ) + s)) (hex : ∃ n : ℤ, x = (n : ℚ) * 2 ^ s) :
    floatRound x = x := by
  obtain ⟨n, hn⟩ := hex
  have h2e : (2 : ℚ) ^ Int.log 2 x ≤ x := by
    have h := Int.zpow_log_le_self (show (1:ℕ) < 2 from by norm_num) hx
    simpa using h
  have hle : Int.log 2 x ≤ 53 + s := by
    have hh : (2 : ℚ) ^ Int.log 2 x ≤ (2 : ℚ) ^ ((53 : ℤ) + s) := le_trans h2e hub
    exact (zpow_le_zpow_iff_right₀ (by norm_num : (1:ℚ) < 2)).mp hh
  rcases eq_or_lt_of_le hle with heq | hlt
  · have hxe : x = (2 : ℚ) ^ Int.log 2 x := by
      refine le_antisymm ?_ h2e
      rw [heq]
      exact hub
    refine floatRound_of_int_signif hx ⟨2 ^ 52, ?_⟩
    rw [heq] at hxe ⊢
    rw [hxe, ← zpow_add₀ (by norm_num : (2:ℚ) ≠ 0)]
    rw [show (53:ℤ) + s + ((52:ℤ) - (53 + s)) = (52:ℤ) from by ring]
    norm_num
  · have ht : 0 ≤ s + 52 - Int.log 2 x := by omega
    refine floatRound_of_int_signif hx ⟨n * 2 ^ (s + 52 - Int.log 2 x).toNat, ?_⟩
    have hstep : x * 2 ^ ((52:ℤ) - Int.log 2 x) = (n:ℚ) * 2 ^ (s + 52 - Int.log 2 x) := by
      rw [hn, mul_assoc, ← zpow_add₀ (by norm_num : (2:ℚ) ≠ 0)]
      rw [show s + ((52:ℤ) - Int.log 2 ((n:ℚ) * 2 ^ s)) = s + 52 - Int.log 2 ((n:ℚ) * 2 ^ s)
        from by ring]
    have hcast : ((n * 2 ^ (s + 52 - Int.log 2 x).toNat : ℤ) : ℚ) =
        (n:ℚ) * 2 ^ (s + 52 - Int.log 2 x) := by
      push_cast
      rw [← zpow_natCast (2:ℚ) (s + 52 - Int.log 2 x).toNat, Int.toNat_of_nonneg ht]
    rw [hstep]
    exact hcast.symm

/-- The rounding error of `floatRound` is at most half an ulp:
`2^(e-53)` where `e` is the binary exponent of the value. -/
theorem floatRound_err {x : ℚ} (hx : 0 < x) :
    x - 2 ^ (Int.log 2 x - 53) ≤ floatRound x ∧
    floatRound x ≤ x + 2 ^ (Int.log 2 x - 53) := by
  unfold floatRound
  rw [if_neg (ne_of_gt hx), if_pos hx]
  obtain ⟨hl, hu⟩ := roundHalfEven_bounds (x * 2 ^ ((52:ℤ) - Int.log 2 x))
  have hp : (0:ℚ) < 2 ^ (Int.log 2 x - (52:ℤ)) := zpow_pos (by norm_num) _
  have heq : (2:ℚ) ^ (Int.log 2 x - 53) = 1 / 2 * 2 ^ (Int.log 2 x - (52:ℤ)) := by
    rw [show Int.log 2 x - 53 = (-1) + (Int.log 2 x - 52) from by ring,
      zpow_add₀ (by norm_num : (2:ℚ) ≠ 0), zpow_neg_one]
    norm_num
  have hxid : x * 2 ^ ((52:ℤ) - Int.log 2 x) * 2 ^ (Int.log 2 x - (52:ℤ)) = x := by
    rw [mul_assoc, ← zpow_add₀ (by norm_num : (2:ℚ) ≠ 0),
      show (52:ℤ) - Int.log 2 x + (Int.log 2 x - 52) = 0 from by ring, zpow_zero, mul_one]
  constructor
  · have h := mul_le_mul_of_nonneg_right hl (le_of_lt hp)
    rw [sub_mul, hxid] at h
    rw [heq]
    linarith
  · have h := mul_le_mul_of_nonneg_right hu (le_of_lt hp)
    rw [add_mul, hxid] at h
    rw [heq]
    linarith

/-- Characterisation of the binary exponent. -/
theorem intLog2_eq {x : ℚ} {e : ℤ} (h1 : (2 : ℚ) ^ e ≤ x) (h2 : x < 2 ^ (e + 1)) :
    Int.log 2 x = e := by
  have hx : 0 < x := lt_of_lt_of_le (zpow_pos (by norm_num) e) h1
  have hl : e ≤ Int.log 2 x :=
    (Int.zpow_le_iff_le_log (show (1:ℕ) < 2 from by norm_num) hx).mp (by simpa using h1)
  have hu : Int.log 2 x < e + 1 :=
    (Int.lt_zpow_iff_log_lt (show (1:ℕ) < 2 from by norm_num) hx).mp (by simpa using h2)
  omega

/-- Integers up to `2^53` convert to `float64` exactly. -/
theorem floatRound_intCast {n : ℤ} (h0 : 0 ≤ n) (h53 : n ≤ 2 ^ 53) :
    floatRound ((n : ℚ)) = (n : ℚ) := by
  rcases eq_or_lt_of_le h0 with h00 | hpos
  · rw [← h00]
    simp [floatRound]
  · apply floatRound_eq_self 0
    · exact_mod_cast hpos
    · rw [show (53:ℤ) + 0 = ((53:ℕ):ℤ) from by norm_num, zpow_natCast]
      exact_mod_cast h53
    · exact ⟨n, by norm_num⟩

/-- The conversion of the constant 2 to `float64` is exact. -/
theorem floatRound_two : floatRound (2 : ℚ) = 2 := by
  have := floatRound_intCast (show (0:ℤ) ≤ 2 from by norm_num) (show (2:ℤ) ≤ 2 ^ 53 from by norm_num)
  simpa using this

/-- The conversion of the constant 10 to `float64` is exact. -/
theorem floatRound_ten : floatRound (10 : ℚ) = 10 := by
  have := floatRound_intCast (show (0:ℤ) ≤ 10 from by norm_num) (show (10:ℤ) ≤ 2 ^ 53 from by norm_num)
  simpa using this

/-- The `float64` ceiling computation agrees with the exact ceiling for the
conversion worker count 2 whenever the page total is at most `2^53`. -/
theorem goCeilDivFloat_two {total : ℤ} (h0 : 0 ≤ total) (h53 : total ≤ 2 ^ 53) :
    goCeilDivFloat total 2 = ceilDiv total 2 := by
  unfold goCeilDivFloat
  rw [show (((2:ℤ)):ℚ) = (2:ℚ) from by norm_num, floatRound_two, floatRound_intCast h0 h53]
  rcases eq_or_lt_of_le h0 with h00 | hpos
  · rw [← h00]
    norm_num
    simp [floatRound]
    decide
  · have hq : floatRound ((total:ℚ) / 2) = (total:ℚ) / 2 := by
      apply floatRound_eq_self (-1)
      · exact div_pos (by exact_mod_cast hpos) (by norm_num)
      · rw [show (53:ℤ) + -1 = (52:ℤ) from by norm_num]
        rw [show (2:ℚ) ^ (52:ℤ) = ((2 ^ 52 : ℤ) : ℚ) from by norm_num]
        rw [div_le_iff₀ (by norm_num : (0:ℚ) < 2)]
        exact_mod_cast (show total ≤ 2 ^ 52 * 2 from by omega)
      · exact ⟨total, by rw [zpow_neg_one, ← div_eq_mul_inv]⟩
    rw [hq, Int.ceil_eq_iff]
    constructor
    · rw [lt_div_iff₀ (by norm_num : (0:ℚ) < 2)]
      exact_mod_cast (show (ceilDiv total 2 - 1) * 2 < total from by unfold ceilDiv; omega)
    · rw [div_le_iff₀ (by norm_num : (0:ℚ) < 2)]
      exact_mod_cast (show total ≤ ceilDiv total 2 * 2 from by unfold ceilDiv; omega)

/-- The `float64` ceiling computation agrees with the exact ceiling for the
upload worker count 10 whenever the page total is at most `2^53`: the
quotient stays below `2^50`, so the rounding error (at most half an ulp,
`1/16`) cannot bridge the `1/10` gap separating the quotient from the
nearest integers. -/
theorem goCeilDivFloat_ten {total : ℤ} (h0 : 0 ≤ total) (h53 : total ≤ 2 ^ 53) :
    goCeilDivFloat total 10 = ceilDiv total 10 := by
  unfold goCeilDivFloat
  rw [show (((10:ℤ)):ℚ) = (10:ℚ) from by norm_num, floatRound_ten, floatRound_intCast h0 h53]
  rcases eq_or_lt_of_le h0 with h00 | hpos
  · rw [← h00]
    norm_num
    simp [floatRound]
    decide
  · by_cases hdvd : total % 10 = 0
    · have hteq : (total:ℚ) / 10 = ((total / 10 : ℤ) : ℚ) := by
        rw [show (total:ℚ) = ((10 * (total / 10) : ℤ) : ℚ) from by exact_mod_cast
          (show total = 10 * (total / 10) from by omega)]
        push_cast
        ring
      rw [hteq, floatRound_intCast (by omega) (by omega), Int.ceil_intCast]
      unfold ceilDiv
      omega
    · have ht0 : (0:ℚ) < (total:ℚ) / 10 := div_pos (by exact_mod_cast hpos) (by norm_num)
      have hlog : Int.log 2 ((total:ℚ) / 10) ≤ 49 := by
        have htub : (total:ℚ) / 10 < (2:ℚ) ^ (50:ℤ) := by
          rw [div_lt_iff₀ (by norm_num : (0:ℚ) < 10)]
          calc (total:ℚ) ≤ ((2 ^ 53 : ℤ) : ℚ) := by exact_mod_cast h53
            _ < 2 ^ (50:ℤ) * 10 := by norm_num
        have := (Int.lt_zpow_iff_log_lt (show (1:ℕ) < 2 from by norm_num) ht0).mp
          (by simpa using htub)
        omega
      have herr : (2:ℚ) ^ (Int.log 2 ((total:ℚ) / 10) - 53) ≤ 1 / 16 := by
        calc (2:ℚ) ^ (Int.log 2 ((total:ℚ) / 10) - 53) ≤ (2:ℚ) ^ ((-4):ℤ) :=
              zpow_le_zpow_right₀ (by norm_num) (by omega)
          _ = 1 / 16 := by norm_num
      obtain ⟨helow, hehigh⟩ := floatRound_err ht0
      have hdm := Int.ediv_add_emod total 10
      have hcast : (total:ℚ) = 10 * ((total / 10 : ℤ) : ℚ) + ((total % 10 : ℤ) : ℚ) := by
        exact_mod_cast hdm.symm
      have hrl : (1:ℚ) ≤ ((total % 10 : ℤ) : ℚ) := by
        exact_mod_cast (show (1:ℤ) ≤ total % 10 from by omega)
      have hrh : ((total % 10 : ℤ) : ℚ) ≤ 9 := by
        exact_mod_cast (show total % 10 ≤ (9:ℤ) from by omega)
      have htl : ((total / 10 : ℤ) : ℚ) + 1 / 10 ≤ (total:ℚ) / 10 := by
        rw [le_div_iff₀ (by norm_num : (0:ℚ) < 10)]
        linarith [hcast, hrl]
      have htu : (total:ℚ) / 10 ≤ ((total / 10 : ℤ) : ℚ) + 9 / 10 := by
        rw [div_le_iff₀ (by norm_num : (0:ℚ) < 10)]
        linarith [hcast, hrh]
      have hcd : ceilDiv total 10 = total / 10 + 1 := by
        unfold ceilDiv
        omega
      rw [Int.ceil_eq_iff, hcd]
      constructor
      · push_cast
        linarith [helow, herr, htl]
      · push_cast
        linarith [hehigh, herr, htu]

/-- Claim C9 counterexample: at `total = 2^53 + 1` (representable as a
64-bit machine integer) with the conversion worker count 2, the `float64`
conversion rounds `2^53 + 1` to `2^53` (a round-to-even tie), so the code
computes a per-worker value of `2^52` while the exact ceiling is
`2^52 + 1`. -/
theorem C9_counterexample :
    goCeilDivFloat (2 ^ 53 + 1) 2 = 2 ^ 52 ∧
    ceilDiv (2 ^ 53 + 1) 2 = 2 ^ 52 + 1 ∧
    goCeilDivFloat (2 ^ 53 + 1) 2 ≠ ceilDiv (2 ^ 53 + 1) 2 := by
  have hlog : Int.log 2 (((2 ^ 53 + 1 : ℤ)) : ℚ) = 53 := by
    apply intLog2_eq
    · norm_num
    · norm_num
  have hfloor : ⌊((2 ^ 53 + 1 : ℤ) : ℚ) * 2 ^ ((52:ℤ) - 53)⌋ = 2 ^ 52 := by
    rw [show (52:ℤ) - 53 = (-1:ℤ) from by norm_num, zpow_neg_one]
    rw [Int.floor_eq_iff]
    constructor
    · push_cast
      norm_num
    · push_cast
      norm_num
  have hsub : ((2 ^ 53 + 1 : ℤ) : ℚ) * 2 ^ ((52:ℤ) - 53) - ((2 ^ 52 : ℤ) : ℚ) = 1 / 2 := by
    rw [show (52:ℤ) - 53 = (-1:ℤ) from by norm_num, zpow_neg_one]
    push_cast
    norm_num
  have hround : roundHalfEven (((2 ^ 53 + 1 : ℤ) : ℚ) * 2 ^ ((52:ℤ) - 53)) = 2 ^ 52 := by
    unfold roundHalfEven
    rw [hfloor]
    rw [if_neg (by rw [hsub]; norm_num), if_neg (by rw [hsub]; norm_num),
      if_pos (show Even ((2:ℤ) ^ 52) from ⟨2 ^ 51, by norm_num⟩)]
  have hfr : floatRound (((2 ^ 53 + 1 : ℤ)) : ℚ) = ((2 ^ 53 : ℤ) : ℚ) := by
    unfold floatRound
    rw [if_neg (by push_cast; norm_num), if_pos (by push_cast; norm_num), hlog, hround]
    rw [show (53:ℤ) - 52 = (1:ℤ) from by norm_num]
    push_cast
    norm_num
  have h1 : goCeilDivFloat (2 ^ 53 + 1) 2 = 2 ^ 52 := by
    unfold goCeilDivFloat
    rw [hfr]
    rw [show (((2:ℤ)):ℚ) = (2:ℚ) from by norm_num, floatRound_two]
    rw [show (((2 ^ 53 : ℤ)) : ℚ) / 2 = (((2 ^ 52 : ℤ)) : ℚ) from by push_cast; norm_num]
    rw [floatRound_intCast (by norm_num) (by norm_num), Int.ceil_intCast]
  have h2 : ceilDiv (2 ^ 53 + 1) 2 = 2 ^ 52 + 1 := by decide
  refine ⟨h1, h2, ?_⟩
  rw [h1, h2]
  omega

/-- Claim C9 as amended: for every machine-representable `total` with
`0 ≤ total ≤ 2^53`, the per-worker page count computed by converting to
`float64`, dividing, applying `math.Ceil` and truncating back to `int`
equals the exact integer ceiling, for both worker counts of the pipeline
(2 for conversion and 10 for upload).  Beyond `2^53` the conversion to
`float64` is no longer exact and the equality fails (see the
counterexample). -/
theorem C9_float_ceiling_amended (total : ℤ) (h0 : 0 ≤ total) (h53 : total ≤ 2 ^ 53) :
    goCeilDivFloat total NUM_WORKERS_CONVERT = ceilDiv total NUM_WORKERS_CONVERT ∧
    goCeilDivFloat total NUM_WORKERS_UPLOAD = ceilDiv total NUM_WORKERS_UPLOAD :=
  ⟨goCeilDivFloat_two h0 h53, goCeilDivFloat_ten h0 h53⟩

/-- Witness for the amended C9 at `total = 7`. -/
theorem C9_float_ceiling_amended_witness :
    (0:ℤ) ≤ 7 ∧ (7:ℤ) ≤ 2 ^ 53 ∧
    goCeilDivFloat 7 NUM_WORKERS_CONVERT = ceilDiv 7 NUM_WORKERS_CONVERT :=
  ⟨by norm_num, by norm_num, (C9_float_ceiling_amended 7 (by norm_num) (by norm_num)).1⟩
